import Mathlib

/-!
Verification of the KAISA-Agents streaming pipeline.

This file gives a shallow embedding of the core algorithms of the repository:

* the streaming `<thinking>` tag filter implemented identically in
  `src/agents/general_agent.py` (`stream_async`, lines 444-518) and
  `src/agents/curriculum_agent.py` (`stream_async`, lines 92-159), and with an
  additional newline-to-`<br>` rewrite in `src/agents/quizzer_agent.py`
  (`stream_async`, lines 560-624);
* the turn coordinator `stream_to_client_and_persist` and the session handling
  of `async_handler` in `src/handlers/main_handler.py`;
* the quiz answer logic `evaluate_answer` in `src/agents/quizzer_agent.py`
  together with its database helpers;
* the session repository functions of
  `src/repositories/user_session_repository.py`.

Text is modelled as `List Char`; the generative model stream is modelled as the
list of `data` fragments it yields.
-/

namespace KAISA

/-! ## The streaming tag filter

Embedding of the buffer/state loop shared by `general_agent.stream_async` and
`curriculum_agent.stream_async`.  The Python code keeps a string `buffer` and a
flag `inside_thinking`; after appending each incoming fragment it runs a
`while True` loop that repeatedly searches the buffer for the open or close
tag.  Each iteration that finds a tag shortens the buffer by at least the tag
length, so the loop runs at most `buffer.length` times; we therefore embed the
loop with an explicit iteration budget of `buffer.length + 1`, which is shown
below (`procBufF_fuel_congr`) to be large enough for the result to be
independent of the budget. -/

/-- Python `str.lower` restricted to one character (the tags are ASCII). -/
def lc (c : Char) : Char := c.toLower

/-- The open tag `'<thinking>'` (10 characters). -/
def openTagL : List Char := ['<', 't', 'h', 'i', 'n', 'k', 'i', 'n', 'g', '>']

/-- The close tag `'</thinking>'` (11 characters). -/
def closeTagL : List Char :=
  ['<', '/', 't', 'h', 'i', 'n', 'k', 'i', 'n', 'g', '>']

/-- Does the lowercased buffer start with `tag` (which is stored lowercase)?
Mirrors the comparison done by `buffer.lower().find(tag)` at one offset. -/
def matchAt : List Char → List Char → Bool
  | _, [] => true
  | [], _ :: _ => false
  | b :: bs, t :: ts => (lc b == t) && matchAt bs ts

/-- Index of the first case-insensitive occurrence of `tag` in `buf`:
`buffer.lower().find(tag)`, with `none` for Python's `-1`. -/
def findTag : List Char → List Char → Option Nat
  | [], tag => if matchAt [] tag then some 0 else none
  | b :: bs, tag =>
    if matchAt (b :: bs) tag then some 0
    else (findTag bs tag).map (fun n => n + 1)

/-- Lowercase equality of two equal-length strings (`s.lower() == t` with `t`
already lowercase). -/
def eqLower : List Char → List Char → Bool
  | [], [] => true
  | b :: bs, t :: ts => (lc b == t) && eqLower bs ts
  | _, _ => false

/-- Python `buffer[-n:]` for `n > 0` (and all of `buffer` when `n ≥ len`). -/
def lastN (n : Nat) (l : List Char) : List Char := l.drop (l.length - n)

/-- The Python loop
`for i in range(min(tagLen, len(buffer)), 0, -1): if buffer[-i:].lower() == tag[:i]: ...`
returning the first (largest) matching `i`, or `0` when none matches.
`sufLen n buf tag` scans `i = n, n-1, ..., 1`. -/
def sufLen : Nat → List Char → List Char → Nat
  | 0, _, _ => 0
  | i + 1, buf, tag =>
    if eqLower (lastN (i + 1) buf) (tag.take (i + 1)) then i + 1
    else sufLen i buf tag

/-- Length of the longest suffix of `buf` that case-insensitively matches a
prefix of `tag`, bounded by `min tag.length buf.length` exactly as the Python
`range(min(len(tag), len(buffer)), 0, -1)` scan. -/
def suffixMatchLen (buf tag : List Char) : Nat :=
  sufLen (min tag.length buf.length) buf tag

/-- Filter state: the carried-over `buffer` and the `inside_thinking` flag. -/
structure FiltSt where
  buf : List Char
  inside : Bool
deriving DecidableEq, Repr

/-- Result of running the tag-scanning loop to quiescence on one buffer:
the concatenation of the yielded pieces and the new state. -/
structure FiltRes where
  out : List Char
  st : FiltSt
deriving DecidableEq, Repr

/-- The `while True` loop body of `stream_async`, with an explicit iteration
budget (first argument).  Each constructor-by-constructor branch corresponds to
a branch of the Python code:

* not inside, tag found at `k`: yield `buffer[:k]`, drop the tag, go inside;
* not inside, not found: yield all but the longest suffix matching a prefix of
  the open tag, keep that suffix;
* inside, close tag found at `k`: discard through the close tag, go outside;
* inside, not found: if more than 11 characters are buffered, keep the longest
  suffix matching a prefix of the close tag, or the last 11 characters when no
  suffix matches. -/
def procBufF : Nat → List Char → Bool → FiltRes
  | 0, buf, inside => ⟨[], buf, inside⟩
  | fuel + 1, buf, false =>
    match findTag buf openTagL with
    | some k =>
      let r := procBufF fuel (buf.drop (k + 10)) true
      ⟨buf.take k ++ r.out, r.st⟩
    | none =>
      let i := suffixMatchLen buf openTagL
      ⟨buf.take (buf.length - i), buf.drop (buf.length - i), false⟩
  | fuel + 1, buf, true =>
    match findTag buf closeTagL with
    | some k => procBufF fuel (buf.drop (k + 11)) false
    | none =>
      if 11 < buf.length then
        let i := suffixMatchLen buf closeTagL
        ⟨[], if 0 < i then lastN i buf else lastN 11 buf, true⟩
      else ⟨[], buf, true⟩

/-- Run the scanning loop to quiescence on a buffer. -/
def procBuf (buf : List Char) (inside : Bool) : FiltRes :=
  procBufF (buf.length + 1) buf inside

/-- Handle one incoming stream fragment: append it to the pending buffer and
run the scanning loop. -/
def stepFilter (st : FiltSt) (frag : List Char) : FiltRes :=
  procBuf (st.buf ++ frag) st.inside

/-- Concatenation of everything yielded by `stream_async` of
`general_agent.py` / `curriculum_agent.py` from state `st` on the given
fragments, including the final flush (`if buffer and not inside_thinking:
yield buffer`). -/
def runFilterFrom : FiltSt → List (List Char) → List Char
  | st, [] => if st.inside then [] else st.buf
  | st, f :: fs =>
    let r := stepFilter st f
    r.out ++ runFilterFrom r.st fs

/-- The full filter on a fragment sequence, from the initial state
`buffer = ""`, `inside_thinking = False`. -/
def runFilter (frags : List (List Char)) : List Char :=
  runFilterFrom ⟨[], false⟩ frags

/-- Filter state reached after consuming the given fragments (the point where
the Python generator waits on `async for`). -/
def runStateFrom : FiltSt → List (List Char) → FiltSt
  | st, [] => st
  | st, f :: fs => runStateFrom (stepFilter st f).st fs

/-- State of the filter after all fragments, from the initial state. -/
def runState (frags : List (List Char)) : FiltSt :=
  runStateFrom ⟨[], false⟩ frags

/-- `'<br>'`, the replacement the quizzer agent makes for `'\n'`. -/
def brTag : List Char := ['<', 'b', 'r', '>']

/-- Python `s.replace('\n', '<br>')` as done on every yield of
`quizzer_agent.stream_async`. -/
def replaceNl : List Char → List Char
  | [] => []
  | c :: cs => if c == '\n' then brTag ++ replaceNl cs else c :: replaceNl cs

/-- Concatenation of everything yielded by `quizzer_agent.stream_async`
(lines 560-624): the same buffer/state loop, but every yielded piece goes
through `.replace('\n', '<br>')`. -/
def runFilterQuizFrom : FiltSt → List (List Char) → List Char
  | st, [] => if st.inside then [] else replaceNl st.buf
  | st, f :: fs =>
    let r := stepFilter st f
    replaceNl r.out ++ runFilterQuizFrom r.st fs

/-- The quizzer agent's filter on a fragment sequence. -/
def runFilterQuiz (frags : List (List Char)) : List Char :=
  runFilterQuizFrom ⟨[], false⟩ frags

/-! ### Occurrence predicates

`openAt c j` / `closeAt c j` say that a case-insensitive occurrence of the
open / close tag starts at index `j` of `c`.  These are the positions at which
`buffer.lower().find(tag)` can report a hit. -/

/-- A case-insensitive occurrence of `<thinking>` starts at index `j`. -/
def openAt (c : List Char) (j : Nat) : Prop :=
  matchAt (c.drop j) openTagL = true

/-- A case-insensitive occurrence of `</thinking>` starts at index `j`. -/
def closeAt (c : List Char) (j : Nat) : Prop :=
  matchAt (c.drop j) closeTagL = true

instance (c : List Char) (j : Nat) : Decidable (openAt c j) := by
  unfold openAt; infer_instance

instance (c : List Char) (j : Nat) : Decidable (closeAt c j) := by
  unfold closeAt; infer_instance

/-- The window `c[a:b]` of a string, as used to track how much of the input
stream the filter has seen and how much of it is still buffered. -/
def seg (c : List Char) (a b : Nat) : List Char := (c.take b).drop a

/-! ### Basic lemmas about the scanning primitives -/

theorem eqLower_iff_map {l t : List Char} : eqLower l t = true ↔ l.map lc = t := by
  induction l generalizing t with
  | nil => cases t <;> simp [eqLower]
  | cons b bs ih =>
    cases t with
    | nil => simp [eqLower]
    | cons t ts => simp [eqLower, ih]

theorem matchAt_iff {l tag : List Char} :
    matchAt l tag = true ↔
      tag.length ≤ l.length ∧ (l.take tag.length).map lc = tag := by
  induction tag generalizing l with
  | nil => simp [matchAt]
  | cons t ts ih =>
    cases l with
    | nil => simp [matchAt]
    | cons b bs =>
      simp only [matchAt, Bool.and_eq_true, beq_iff_eq, ih, List.length_cons,
        List.take_succ_cons, List.map_cons, List.cons.injEq]
      exact ⟨fun ⟨a, b, c⟩ => ⟨by omega, a, c⟩, fun ⟨a, b, c⟩ => ⟨b, by omega, c⟩⟩

theorem matchAt_nil_of_ne {tag : List Char} (ht : tag ≠ []) :
    matchAt [] tag = false := by
  cases tag with
  | nil => exact absurd rfl ht
  | cons t ts => rfl

theorem findTag_none_iff {buf tag : List Char} (ht : tag ≠ []) :
    findTag buf tag = none ↔ ∀ k, matchAt (buf.drop k) tag = false := by
  induction buf with
  | nil =>
    unfold findTag
    rw [if_neg (by simp [matchAt_nil_of_ne ht])]
    exact ⟨fun _ k => by simpa using matchAt_nil_of_ne ht, fun _ => rfl⟩
  | cons b bs ih =>
    unfold findTag
    by_cases h : matchAt (b :: bs) tag = true
    · rw [if_pos h]
      constructor
      · intro hc; exact absurd hc (by simp)
      · intro hall; exact absurd (hall 0) (by simp [h])
    · rw [if_neg h, Option.map_eq_none', ih]
      constructor
      · intro hall k
        cases k with
        | zero => simpa using eq_false_of_ne_true h
        | succ k => simpa using hall k
      · intro hall k; simpa using hall (k + 1)

theorem findTag_some_iff {buf tag : List Char} {k : Nat} :
    findTag buf tag = some k ↔
      matchAt (buf.drop k) tag = true ∧ ∀ j < k, matchAt (buf.drop j) tag = false := by
  induction buf generalizing k with
  | nil =>
    unfold findTag
    by_cases h : matchAt ([] : List Char) tag = true
    · rw [if_pos h]
      simp only [List.drop_nil, Option.some.injEq]
      constructor
      · rintro rfl; exact ⟨h, by omega⟩
      · rintro ⟨_, hmin⟩
        cases k with
        | zero => rfl
        | succ k => exact absurd h (by simpa using hmin 0 (Nat.succ_pos k))
    · rw [if_neg h]
      simp only [List.drop_nil]
      constructor
      · intro hc; exact absurd hc (by simp)
      · rintro ⟨hm, _⟩; exact absurd hm h
  | cons b bs ih =>
    unfold findTag
    by_cases h : matchAt (b :: bs) tag = true
    · rw [if_pos h]
      simp only [Option.some.injEq]
      constructor
      · rintro rfl; exact ⟨by simpa using h, by omega⟩
      · rintro ⟨_, hmin⟩
        cases k with
        | zero => rfl
        | succ k => exact absurd h (by simpa using hmin 0 (Nat.succ_pos k))
    · rw [if_neg h]
      cases k with
      | zero =>
        simp only [List.drop_zero]
        constructor
        · intro hc
          rcases Option.map_eq_some'.mp hc with ⟨k', _, hk'⟩
          exact absurd hk' (by omega)
        · rintro ⟨hm, _⟩; exact absurd hm h
      | succ k =>
        constructor
        · intro hc
          rcases Option.map_eq_some'.mp hc with ⟨k', hk', hkk⟩
          have hkeq : k' = k := by omega
          subst hkeq
          rcases ih.mp hk' with ⟨hm, hmin⟩
          refine ⟨by simpa using hm, ?_⟩
          intro j hj
          cases j with
          | zero => simpa using eq_false_of_ne_true h
          | succ j => simpa using hmin j (by omega)
        · rintro ⟨hm, hmin⟩
          have hfind : findTag bs tag = some k := by
            apply ih.mpr
            refine ⟨by simpa using hm, ?_⟩
            intro j hj
            simpa using hmin (j + 1) (by omega)
          simp [hfind]

theorem findTag_some_bound {buf tag : List Char} {k : Nat} (ht : tag ≠ [])
    (h : findTag buf tag = some k) : k + tag.length ≤ buf.length := by
  have hm := (findTag_some_iff.mp h).1
  have hlen := (matchAt_iff.mp hm).1
  have hpos : 0 < tag.length := List.length_pos.mpr ht
  simp only [List.length_drop] at hlen
  omega

theorem sufLen_le (n : Nat) (buf tag : List Char) : sufLen n buf tag ≤ n := by
  induction n with
  | zero => simp [sufLen]
  | succ n ih =>
    unfold sufLen
    by_cases h : eqLower (lastN (n + 1) buf) (tag.take (n + 1)) = true
    · rw [if_pos h]
    · rw [if_neg h]; omega

theorem sufLen_spec {n : Nat} {buf tag : List Char}
    (h : 0 < sufLen n buf tag) :
    eqLower (lastN (sufLen n buf tag) buf) (tag.take (sufLen n buf tag)) = true := by
  induction n with
  | zero => simp [sufLen] at h
  | succ n ih =>
    unfold sufLen at h ⊢
    by_cases he : eqLower (lastN (n + 1) buf) (tag.take (n + 1)) = true
    · rw [if_pos he]; exact he
    · rw [if_neg he] at h ⊢; exact ih h

theorem sufLen_max {n ℓ : Nat} {buf tag : List Char} (hln : ℓ ≤ n)
    (h : eqLower (lastN ℓ buf) (tag.take ℓ) = true) : ℓ ≤ sufLen n buf tag := by
  induction n with
  | zero => omega
  | succ n ih =>
    unfold sufLen
    by_cases he : eqLower (lastN (n + 1) buf) (tag.take (n + 1)) = true
    · rw [if_pos he]; omega
    · rw [if_neg he]
      rcases Nat.lt_or_ge ℓ (n + 1) with hc | hc
      · exact ih (by omega)
      · have hl : ℓ = n + 1 := by omega
        subst hl
        exact absurd h he

/-! ### Window (`seg`) algebra -/

theorem seg_append {c : List Char} {a b d : Nat} (h1 : a ≤ b) (h2 : b ≤ d) :
    seg c a b ++ seg c b d = seg c a d := by
  unfold seg
  have e1 : c.take b = (c.take d).take b := by
    rw [List.take_take, Nat.min_eq_left h2]
  rw [e1, List.drop_take]
  have e2 : (c.take d).drop b = ((c.take d).drop a).drop (b - a) := by
    rw [List.drop_drop]
    congr 1
    omega
  rw [e2, List.take_append_drop]

theorem length_seg {c : List Char} {a b : Nat} (h : b ≤ c.length) :
    (seg c a b).length = b - a := by
  unfold seg
  simp [List.length_drop, List.length_take, Nat.min_eq_left h]

theorem seg_take {c : List Char} {a b j : Nat} (h : a + j ≤ b) :
    (seg c a b).take j = seg c a (a + j) := by
  unfold seg
  rw [List.take_drop, List.take_take, Nat.min_eq_left h]

theorem seg_drop {c : List Char} {a b j : Nat} :
    (seg c a b).drop j = seg c (a + j) b := by
  unfold seg
  rw [List.drop_drop]

theorem seg_zero {c : List Char} {b : Nat} : seg c 0 b = c.take b := by
  simp [seg]

theorem seg_length_self {c : List Char} {a : Nat} :
    seg c a c.length = c.drop a := by
  simp [seg]

theorem seg_nil {c : List Char} {a b : Nat} (h : b ≤ a) : seg c a b = [] := by
  apply List.eq_nil_of_length_eq_zero
  unfold seg
  simp only [List.length_drop, List.length_take]
  omega

theorem lastN_seg {c : List Char} {a b n : Nat} (hb : b ≤ c.length)
    (ha : a ≤ b) (hn : n ≤ b - a) : lastN n (seg c a b) = seg c (b - n) b := by
  unfold lastN
  rw [length_seg hb, seg_drop]
  congr 1
  omega

theorem lastN_le_length {n : Nat} {l : List Char} : (lastN n l).length ≤ n := by
  unfold lastN
  simp only [List.length_drop]
  omega

/-! ### Occurrences seen through a window -/

theorem matchAt_seg_iff {c tag : List Char} {a W : Nat} (hW : W ≤ c.length)
    (ha : a + tag.length ≤ W) :
    (matchAt (seg c a W) tag = true) ↔ matchAt (c.drop a) tag = true := by
  rw [matchAt_iff, matchAt_iff]
  have hlen1 : (seg c a W).length = W - a := length_seg hW
  have e1 : (seg c a W).take tag.length = seg c a (a + tag.length) :=
    seg_take ha
  have e2 : (c.drop a).take tag.length = seg c a (a + tag.length) := by
    unfold seg
    rw [List.take_drop]
  rw [hlen1, e1, e2, List.length_drop]
  constructor
  · rintro ⟨h1, h2⟩; exact ⟨by omega, h2⟩
  · rintro ⟨h1, h2⟩; exact ⟨by omega, h2⟩

theorem matchAt_seg_bound {c tag : List Char} {a W : Nat} (ht : tag ≠ [])
    (hW : W ≤ c.length) (h : matchAt (seg c a W) tag = true) :
    a + tag.length ≤ W ∧ matchAt (c.drop a) tag = true := by
  have hb := (matchAt_iff.mp h).1
  rw [length_seg hW] at hb
  have hpos : 0 < tag.length := List.length_pos.mpr ht
  have ha : a + tag.length ≤ W := by omega
  exact ⟨ha, (matchAt_seg_iff hW ha).mp h⟩

/-! ### Unfolding the scanning loop

The iteration budget in `procBufF` does not matter as soon as it exceeds the
buffer length, because every iteration that re-enters the loop removes a whole
tag from the buffer. -/

theorem openTagL_ne_nil : openTagL ≠ [] := by decide

theorem closeTagL_ne_nil : closeTagL ≠ [] := by decide

theorem length_openTagL : openTagL.length = 10 := by decide

theorem length_closeTagL : closeTagL.length = 11 := by decide

theorem procBufF_fuel_congr :
    ∀ {m : Nat} {n : Nat} {buf : List Char} {inside : Bool},
      buf.length < m → buf.length < n →
      procBufF m buf inside = procBufF n buf inside := by
  intro m
  induction m with
  | zero => intro n buf inside h; omega
  | succ m ih =>
    intro n buf inside hm hn
    cases n with
    | zero => omega
    | succ n =>
      cases inside with
      | true =>
        show procBufF (m + 1) buf true = procBufF (n + 1) buf true
        unfold procBufF
        cases hf : findTag buf closeTagL with
        | some k =>
          have hk := findTag_some_bound closeTagL_ne_nil hf
          rw [length_closeTagL] at hk
          apply ih <;> simp only [List.length_drop] <;> omega
        | none => rfl
      | false =>
        show procBufF (m + 1) buf false = procBufF (n + 1) buf false
        unfold procBufF
        cases hf : findTag buf openTagL with
        | some k =>
          have hk := findTag_some_bound openTagL_ne_nil hf
          rw [length_openTagL] at hk
          have hrec : procBufF m (buf.drop (k + 10)) true =
              procBufF n (buf.drop (k + 10)) true := by
            apply ih <;> simp only [List.length_drop] <;> omega
          simp only [hf, hrec]
        | none => simp only [hf]

theorem procBuf_open_some {buf : List Char} {k : Nat}
    (h : findTag buf openTagL = some k) :
    procBuf buf false =
      ⟨buf.take k ++ (procBuf (buf.drop (k + 10)) true).out,
        (procBuf (buf.drop (k + 10)) true).st⟩ := by
  have hk := findTag_some_bound openTagL_ne_nil h
  rw [length_openTagL] at hk
  unfold procBuf
  conv_lhs => rw [procBufF]
  simp only [h]
  have hrec : procBufF (buf.length) (buf.drop (k + 10)) true =
      procBufF ((buf.drop (k + 10)).length + 1) (buf.drop (k + 10)) true := by
    apply procBufF_fuel_congr <;> simp only [List.length_drop] <;> omega
  rw [hrec]

theorem procBuf_open_none {buf : List Char}
    (h : findTag buf openTagL = none) :
    procBuf buf false =
      ⟨buf.take (buf.length - suffixMatchLen buf openTagL),
        buf.drop (buf.length - suffixMatchLen buf openTagL), false⟩ := by
  unfold procBuf
  conv_lhs => rw [procBufF]
  simp only [h]

theorem procBuf_close_some {buf : List Char} {k : Nat}
    (h : findTag buf closeTagL = some k) :
    procBuf buf true = procBuf (buf.drop (k + 11)) false := by
  have hk := findTag_some_bound closeTagL_ne_nil h
  rw [length_closeTagL] at hk
  unfold procBuf
  conv_lhs => rw [procBufF]
  simp only [h]
  apply procBufF_fuel_congr <;> simp only [List.length_drop] <;> omega

theorem procBuf_close_none_big {buf : List Char}
    (h : findTag buf closeTagL = none) (hlen : 11 < buf.length) :
    procBuf buf true =
      ⟨[], if 0 < suffixMatchLen buf closeTagL
            then lastN (suffixMatchLen buf closeTagL) buf
            else lastN 11 buf, true⟩ := by
  unfold procBuf
  conv_lhs => rw [procBufF]
  simp only [h, if_pos hlen]

theorem procBuf_close_none_small {buf : List Char}
    (h : findTag buf closeTagL = none) (hlen : ¬ 11 < buf.length) :
    procBuf buf true = ⟨[], buf, true⟩ := by
  unfold procBuf
  conv_lhs => rw [procBufF]
  simp only [h, if_neg hlen]

/-! ## C2: inputs without the open tag pass through unchanged -/

theorem matchAt_append_mono {l l' tag : List Char}
    (h : matchAt l tag = true) : matchAt (l ++ l') tag = true := by
  rcases matchAt_iff.mp h with ⟨hlen, hmap⟩
  apply matchAt_iff.mpr
  refine ⟨by simp; omega, ?_⟩
  rw [List.take_append_of_le_length hlen, hmap]

/-- If no occurrence of `tag` starts anywhere in `x ++ y`, then none starts
anywhere in `x` either. -/
theorem no_occurrence_of_append {x y tag : List Char}
    (h : ∀ k, matchAt ((x ++ y).drop k) tag = false) :
    ∀ k, matchAt (x.drop k) tag = false := by
  intro k
  by_contra hx
  have hx' : matchAt (x.drop k) tag = true := by
    cases hm : matchAt (x.drop k) tag with
    | true => rfl
    | false => exact absurd hm hx
  have : matchAt ((x ++ y).drop k) tag = true := by
    rw [List.drop_append_eq_append_drop]
    exact matchAt_append_mono hx'
  rw [h k] at this
  exact absurd this (by simp)

/-- Main invariant for C2: from an outside state whose pending buffer `p`,
followed by the remaining fragments, contains no occurrence of the open tag,
the filter emits exactly `p` and all remaining input. -/
theorem runFilterFrom_no_open :
    ∀ (fs : List (List Char)) (p : List Char),
      (∀ k, matchAt ((p ++ fs.flatten).drop k) openTagL = false) →
      runFilterFrom ⟨p, false⟩ fs = p ++ fs.flatten := by
  intro fs
  induction fs with
  | nil => intro p h; simp [runFilterFrom]
  | cons f fs ih =>
    intro p h
    have hjoin : p ++ (f :: fs).flatten = (p ++ f) ++ fs.flatten := by simp
    rw [hjoin] at h
    have hnone : findTag (p ++ f) openTagL = none := by
      rw [findTag_none_iff openTagL_ne_nil]
      exact no_occurrence_of_append h
    have hproc := procBuf_open_none hnone
    have hd : (p ++ f).length - suffixMatchLen (p ++ f) openTagL ≤ (p ++ f).length :=
      Nat.sub_le _ _
    generalize hD : (p ++ f).length - suffixMatchLen (p ++ f) openTagL = d at hproc hd
    have hrem : (p ++ f).drop d ++ fs.flatten = ((p ++ f) ++ fs.flatten).drop d := by
      conv_rhs => rw [List.drop_append_eq_append_drop]
      have h0 : d - (p ++ f).length = 0 := by omega
      rw [h0, List.drop_zero]
    have hih := ih ((p ++ f).drop d) (by
      intro k
      rw [hrem, List.drop_drop]
      exact h (d + k))
    have hstep : stepFilter ⟨p, false⟩ f = procBuf (p ++ f) false := rfl
    show (stepFilter ⟨p, false⟩ f).out ++
        runFilterFrom (stepFilter ⟨p, false⟩ f).st fs = p ++ (f :: fs).flatten
    rw [hstep, hproc]
    simp only
    rw [hih, hrem, hjoin, ← hrem, ← List.append_assoc, List.take_append_drop]

/-- `replace` distributes over concatenation. -/
theorem replaceNl_append (a b : List Char) :
    replaceNl (a ++ b) = replaceNl a ++ replaceNl b := by
  induction a with
  | nil => simp [replaceNl]
  | cons c cs ih =>
    by_cases h : c == '\n'
    · simp [replaceNl, h, ih]
    · simp [replaceNl, h, ih]

/-- The quizzer filter is the shared filter followed by newline replacement on
every emitted piece. -/
theorem runFilterQuizFrom_eq :
    ∀ (fs : List (List Char)) (st : FiltSt),
      runFilterQuizFrom st fs = replaceNl (runFilterFrom st fs) := by
  intro fs
  induction fs with
  | nil =>
    intro st
    cases h : st.inside <;> simp [runFilterQuizFrom, runFilterFrom, h, replaceNl]
  | cons f fs ih =>
    intro st
    simp only [runFilterQuizFrom, runFilterFrom, replaceNl_append, ih]

/-! ## Window-level behaviour of one scanning pass

The next lemmas describe `procBuf` on a buffer that is the window `c[m:W]` of
the full stream `c`, in each of the situations the C1/C4 proofs need. -/

theorem seg_eq_take_drop {c : List Char} {a b : Nat} :
    seg c a b = (c.drop a).take (b - a) := by
  unfold seg
  rw [List.drop_take]

theorem map_take_of_matchAt {c tag : List Char} {P n : Nat}
    (h : matchAt (c.drop P) tag = true) (hn : n ≤ tag.length) :
    ((c.drop P).take n).map lc = tag.take n := by
  have hmap := (matchAt_iff.mp h).2
  have := congrArg (List.take n) hmap
  rwa [← List.map_take, List.take_take, Nat.min_eq_left hn] at this

/-- Quiescent result of the loop from the inside state when the window
contains no close tag: no output, and the kept pending window still contains
every suffix that matches a prefix of the close tag. -/
theorem procBuf_inside_none_spec {c : List Char} {m W : Nat}
    (hnone : findTag (seg c m W) closeTagL = none)
    (hmW : m ≤ W) (hW : W ≤ c.length) :
    ∃ m', procBuf (seg c m W) true = ⟨[], seg c m' W, true⟩ ∧ m ≤ m' ∧ m' ≤ W ∧
      ∀ ℓ, ℓ ≤ 11 → ℓ ≤ W - m →
        eqLower (lastN ℓ (seg c m W)) (closeTagL.take ℓ) = true → m' ≤ W - ℓ := by
  have hlen : (seg c m W).length = W - m := length_seg hW
  by_cases h11 : 11 < (seg c m W).length
  · have hi : suffixMatchLen (seg c m W) closeTagL ≤ 11 := by
      have := sufLen_le (min closeTagL.length (seg c m W).length) (seg c m W) closeTagL
      unfold suffixMatchLen
      rw [length_closeTagL] at this ⊢
      omega
    have hproc := procBuf_close_none_big hnone h11
    by_cases hpos : 0 < suffixMatchLen (seg c m W) closeTagL
    · refine ⟨W - suffixMatchLen (seg c m W) closeTagL, ?_, by omega, by omega, ?_⟩
      · rw [hproc, if_pos hpos,
          lastN_seg hW hmW (by rw [hlen] at h11; omega)]
      · intro ℓ hl11 hlW heq
        have hmax : ℓ ≤ suffixMatchLen (seg c m W) closeTagL := by
          apply sufLen_max _ heq
          rw [length_closeTagL, hlen]
          omega
        omega
    · refine ⟨W - 11, ?_, by rw [hlen] at h11; omega, by omega, ?_⟩
      · rw [hproc, if_neg hpos,
          lastN_seg hW hmW (by rw [hlen] at h11; omega)]
      · intro ℓ hl11 hlW heq
        omega
  · refine ⟨m, procBuf_close_none_small hnone h11, le_refl m, hmW, ?_⟩
    intro ℓ hl11 hlW heq
    omega

/-- Quiescent result of the loop from the outside state when the window
contains no open tag: everything but the longest partially-matching suffix is
emitted, and that suffix is kept. -/
theorem procBuf_outside_none_spec {c : List Char} {m W : Nat}
    (hnone : findTag (seg c m W) openTagL = none)
    (hmW : m ≤ W) (hW : W ≤ c.length) :
    ∃ i, procBuf (seg c m W) false =
        ⟨seg c m (W - i), seg c (W - i) W, false⟩ ∧ i ≤ W - m ∧
      ∀ ℓ, ℓ ≤ 10 → ℓ ≤ W - m →
        eqLower (lastN ℓ (seg c m W)) (openTagL.take ℓ) = true → ℓ ≤ i := by
  have hlen : (seg c m W).length = W - m := length_seg hW
  have hile : suffixMatchLen (seg c m W) openTagL ≤ W - m := by
    have := sufLen_le (min openTagL.length (seg c m W).length) (seg c m W) openTagL
    unfold suffixMatchLen
    rw [length_openTagL, hlen] at this ⊢
    omega
  refine ⟨suffixMatchLen (seg c m W) openTagL, ?_, hile, ?_⟩
  · have hproc := procBuf_open_none hnone
    rw [hlen] at hproc
    rw [hproc]
    have e1 : (seg c m W).take (W - m - suffixMatchLen (seg c m W) openTagL) =
        seg c m (W - suffixMatchLen (seg c m W) openTagL) := by
      rw [seg_take (by omega)]
      congr 1
      omega
    have e2 : (seg c m W).drop (W - m - suffixMatchLen (seg c m W) openTagL) =
        seg c (W - suffixMatchLen (seg c m W) openTagL) W := by
      rw [seg_drop]
      congr 1
      omega
    rw [e1, e2]
  · intro ℓ hl10 hlW heq
    apply sufLen_max _ heq
    rw [length_openTagL, hlen]
    omega

theorem bool_true_of_ne_false {b : Bool} (h : b ≠ false) : b = true := by
  cases b with
  | true => rfl
  | false => exact absurd rfl h

/-- The search inside a window reports no hit when no occurrence fits inside
the window. -/
theorem findTag_seg_none {c tag : List Char} {m W : Nat} (ht : tag ≠ [])
    (hW : W ≤ c.length)
    (h : ∀ j, m ≤ j → j + tag.length ≤ W → matchAt (c.drop j) tag = false) :
    findTag (seg c m W) tag = none := by
  rw [findTag_none_iff ht]
  intro k
  rw [seg_drop]
  apply eq_false_of_ne_true
  intro hx
  rcases matchAt_seg_bound ht hW hx with ⟨hb1, hb2⟩
  rw [h (m + k) (by omega) hb1] at hb2
  exact absurd hb2 (by simp)

/-- The search inside a window finds the first global occurrence `T` when the
occurrence fits inside the window and nothing earlier in the window matches. -/
theorem findTag_seg_first {c tag : List Char} {m W T : Nat} (ht : tag ≠ [])
    (hW : W ≤ c.length) (hm : m ≤ T) (hT : T + tag.length ≤ W)
    (hocc : matchAt (c.drop T) tag = true)
    (hmin : ∀ j, m ≤ j → j < T → matchAt (c.drop j) tag = false) :
    findTag (seg c m W) tag = some (T - m) := by
  apply findTag_some_iff.mpr
  constructor
  · rw [seg_drop]
    have hmT : m + (T - m) = T := by omega
    rw [hmT]
    exact (matchAt_seg_iff hW (by omega)).mpr hocc
  · intro j hj
    rw [seg_drop]
    apply eq_false_of_ne_true
    intro hx
    rcases matchAt_seg_bound ht hW hx with ⟨_, hb2⟩
    rw [hmin (m + j) (by omega) (by omega)] at hb2
    exact absurd hb2 (by simp)

theorem openAt_le {c : List Char} {P : Nat} (h : openAt c P) :
    P + 10 ≤ c.length := by
  have := (matchAt_iff.mp h).1
  rw [length_openTagL, List.length_drop] at this
  omega

theorem closeAt_le {c : List Char} {Q : Nat} (h : closeAt c Q) :
    Q + 11 ≤ c.length := by
  have := (matchAt_iff.mp h).1
  rw [length_closeTagL, List.length_drop] at this
  omega

/-! ## C4: an unterminated thinking block swallows the rest of the stream -/

/-- Inside state for C4: the window start is past the open tag and no close
tag ever occurs after the open tag, so the loop stays inside and emits
nothing. -/
theorem c4_phaseB {c : List Char} {P : Nat}
    (hnoclose : ∀ j, j < c.length → P ≤ j → ¬ closeAt c j)
    {m W : Nat} (hm : P + 10 ≤ m) (hmW : m ≤ W) (hW : W ≤ c.length) :
    ∃ m', procBuf (seg c m W) true = ⟨[], seg c m' W, true⟩ ∧
      P + 10 ≤ m' ∧ m' ≤ W := by
  have hnone : findTag (seg c m W) closeTagL = none := by
    apply findTag_seg_none closeTagL_ne_nil hW
    intro j hj hjW
    rw [length_closeTagL] at hjW
    apply eq_false_of_ne_true
    intro hx
    exact hnoclose j (by omega) (by omega) hx
  rcases procBuf_inside_none_spec hnone hmW hW with ⟨m', hp, hmm', hm'W, _⟩
  exact ⟨m', hp, by omega, hm'W⟩

/-- Outside state for C4: the window start is before the (unique, first) open
tag at `P`, everything before `P` is eventually emitted, and once the window
reaches past the tag the filter is inside with nothing more emitted. -/
theorem c4_phaseA {c : List Char} {P : Nat}
    (hopen : openAt c P)
    (hfirst : ∀ j, j < P → ¬ openAt c j)
    (hnoclose : ∀ j, j < c.length → P ≤ j → ¬ closeAt c j)
    {m W : Nat} (hm : m ≤ P) (hmW : m ≤ W) (hW : W ≤ c.length) :
    (W < P + 10 → ∃ d, procBuf (seg c m W) false = ⟨seg c m d, seg c d W, false⟩ ∧
        m ≤ d ∧ d ≤ P ∧ d ≤ W) ∧
    (P + 10 ≤ W → ∃ m', procBuf (seg c m W) false = ⟨seg c m P, seg c m' W, true⟩ ∧
        P + 10 ≤ m' ∧ m' ≤ W) := by
  constructor
  · intro hWP
    have hnone : findTag (seg c m W) openTagL = none := by
      apply findTag_seg_none openTagL_ne_nil hW
      intro j hj hjW
      rw [length_openTagL] at hjW
      apply eq_false_of_ne_true
      intro hx
      exact hfirst j (by omega) hx
    rcases procBuf_outside_none_spec hnone hmW hW with ⟨i, hp, hiW, hmax⟩
    refine ⟨W - i, hp, by omega, ?_, by omega⟩
    rcases le_or_lt W P with hc | hc
    · omega
    · have heq : eqLower (lastN (W - P) (seg c m W)) (openTagL.take (W - P)) = true := by
        rw [lastN_seg hW hmW (by omega)]
        have hWW : W - (W - P) = P := by omega
        rw [hWW]
        apply eqLower_iff_map.mpr
        rw [seg_eq_take_drop]
        exact map_take_of_matchAt hopen (by rw [length_openTagL]; omega)
      have := hmax (W - P) (by omega) (by omega) heq
      omega
  · intro hPW
    have hfind : findTag (seg c m W) openTagL = some (P - m) := by
      apply findTag_seg_first openTagL_ne_nil hW hm
        (by rw [length_openTagL]; omega) hopen
      intro j hjm hjP
      apply eq_false_of_ne_true
      intro hx
      exact hfirst j (by omega) hx
    rw [procBuf_open_some hfind]
    have hdrop : (seg c m W).drop (P - m + 10) = seg c (P + 10) W := by
      rw [seg_drop]
      congr 1
      omega
    have htake : (seg c m W).take (P - m) = seg c m P := by
      rw [seg_take (by omega)]
      congr 1
      omega
    rw [hdrop, htake]
    rcases c4_phaseB hnoclose (le_refl (P + 10)) hPW hW with ⟨m', hp, hm1, hm2⟩
    rw [hp]
    exact ⟨m', by simp, hm1, hm2⟩

/-- Fragment-level induction for C4. -/
theorem c4_aux {c : List Char} {P : Nat}
    (hopen : openAt c P)
    (hfirst : ∀ j, j < P → ¬ openAt c j)
    (hnoclose : ∀ j, j < c.length → P ≤ j → ¬ closeAt c j) :
    ∀ (fs : List (List Char)) (W m : Nat),
      fs.flatten = c.drop W → W ≤ c.length →
      (m ≤ P → m ≤ W → W < P + 10 →
        runFilterFrom ⟨seg c m W, false⟩ fs = seg c m P) ∧
      (P + 10 ≤ m → m ≤ W →
        runFilterFrom ⟨seg c m W, true⟩ fs = []) := by
  intro fs
  induction fs with
  | nil =>
    intro W m hflat hW
    have hWlen : c.length ≤ W := by
      have := congrArg List.length hflat
      simp only [List.flatten_nil, List.length_nil, List.length_drop] at this
      omega
    constructor
    · intro hm hmW hWP
      have := openAt_le hopen
      omega
    · intro hm hmW
      simp [runFilterFrom]
  | cons f fs ih =>
    intro W m hflat hW
    have hlenf : f.length ≤ c.length - W := by
      have := congrArg List.length hflat
      simp only [List.flatten_cons, List.length_append, List.length_drop] at this
      omega
    have hW1 : W + f.length ≤ c.length := by omega
    have hfseg : f = seg c W (W + f.length) := by
      have h1 := congrArg (List.take f.length) hflat
      rw [List.flatten_cons, List.take_append_of_le_length (le_refl f.length),
        List.take_length] at h1
      rw [seg_eq_take_drop]
      have hWf : W + f.length - W = f.length := by omega
      rw [hWf]
      exact h1
    have hrest : fs.flatten = c.drop (W + f.length) := by
      have h2 := congrArg (List.drop f.length) hflat
      rw [List.flatten_cons, List.drop_append_of_le_length (le_refl f.length),
        List.drop_length, List.drop_drop] at h2
      rw [List.nil_append] at h2
      exact h2
    constructor
    · intro hm hmW hWP
      have hbuf : seg c m W ++ f = seg c m (W + f.length) := by
        conv_lhs => rw [hfseg]
        exact seg_append hmW (Nat.le_add_right W f.length)
      have hstep : stepFilter ⟨seg c m W, false⟩ f =
          procBuf (seg c m (W + f.length)) false := by
        unfold stepFilter
        rw [hbuf]
      show (stepFilter ⟨seg c m W, false⟩ f).out ++
          runFilterFrom (stepFilter ⟨seg c m W, false⟩ f).st fs = seg c m P
      have hmW1 : m ≤ W + f.length := by omega
      rcases c4_phaseA hopen hfirst hnoclose hm hmW1 hW1 with ⟨hA, hB⟩
      rcases Nat.lt_or_ge (W + f.length) (P + 10) with hc | hc
      · rcases hA hc with ⟨d, hp, hmd, hdP, hdW⟩
        rw [hstep, hp]
        simp only
        rw [(ih (W + f.length) d hrest hW1).1 hdP hdW hc]
        exact seg_append hmd hdP
      · rcases hB hc with ⟨m', hp, hm1, hm2⟩
        rw [hstep, hp]
        simp only
        rw [(ih (W + f.length) m' hrest hW1).2 hm1 hm2]
        simp
    · intro hm hmW
      have hbuf : seg c m W ++ f = seg c m (W + f.length) := by
        conv_lhs => rw [hfseg]
        exact seg_append hmW (Nat.le_add_right W f.length)
      have hstep : stepFilter ⟨seg c m W, true⟩ f =
          procBuf (seg c m (W + f.length)) true := by
        unfold stepFilter
        rw [hbuf]
      show (stepFilter ⟨seg c m W, true⟩ f).out ++
          runFilterFrom (stepFilter ⟨seg c m W, true⟩ f).st fs = []
      have hmW1 : m ≤ W + f.length := by omega
      rcases c4_phaseB hnoclose hm hmW1 hW1 with ⟨m', hp, hm1, hm2⟩
      rw [hstep, hp]
      simp only
      rw [(ih (W + f.length) m' hrest hW1).2 hm1 hm2]
      simp

/-! ## C1: removal of a single well-formed thinking span

Throughout this section `c` is the whole input stream, the unique
case-insensitive open tag occurrence starts at `P` and the first close tag
occurrence after it starts at `Q ≥ P + 10`; no further open tag occurs after
the close tag. -/

/-- Phase C: the window starts after the removed span and no open tag occurs
any more, so the filter stays outside, emitting everything it can. -/
theorem c1_phaseC {c : List Char} {Q : Nat}
    (hpost : ∀ j, j < c.length → Q + 11 ≤ j → ¬ openAt c j)
    {m W : Nat} (hm : Q + 11 ≤ m) (hmW : m ≤ W) (hW : W ≤ c.length) :
    ∃ d, procBuf (seg c m W) false = ⟨seg c m d, seg c d W, false⟩ ∧
      m ≤ d ∧ d ≤ W := by
  have hnone : findTag (seg c m W) openTagL = none := by
    apply findTag_seg_none openTagL_ne_nil hW
    intro j hj hjW
    rw [length_openTagL] at hjW
    apply eq_false_of_ne_true
    intro hx
    exact hpost j (by omega) (by omega) hx
  rcases procBuf_outside_none_spec hnone hmW hW with ⟨i, hp, hiW, _⟩
  exact ⟨W - i, hp, by omega, by omega⟩

/-- Phase B: the window starts between the open tag and the close tag; the
filter stays inside until the whole close tag is visible, then switches to
phase C. -/
theorem c1_phaseB {c : List Char} {P Q : Nat}
    (hclose : closeAt c Q)
    (hmid : ∀ j, j < Q → P + 10 ≤ j → ¬ closeAt c j)
    (hpost : ∀ j, j < c.length → Q + 11 ≤ j → ¬ openAt c j)
    {m W : Nat} (hm : P + 10 ≤ m) (hmQ : m ≤ Q) (hmW : m ≤ W)
    (hW : W ≤ c.length) :
    (W < Q + 11 → ∃ m', procBuf (seg c m W) true = ⟨[], seg c m' W, true⟩ ∧
        P + 10 ≤ m' ∧ m' ≤ Q ∧ m' ≤ W) ∧
    (Q + 11 ≤ W → ∃ d, procBuf (seg c m W) true =
        ⟨seg c (Q + 11) d, seg c d W, false⟩ ∧ Q + 11 ≤ d ∧ d ≤ W) := by
  constructor
  · intro hWQ
    have hnone : findTag (seg c m W) closeTagL = none := by
      apply findTag_seg_none closeTagL_ne_nil hW
      intro j hj hjW
      rw [length_closeTagL] at hjW
      apply eq_false_of_ne_true
      intro hx
      exact hmid j (by omega) (by omega) hx
    rcases procBuf_inside_none_spec hnone hmW hW with ⟨m', hp, hmm', hm'W, hkeep⟩
    refine ⟨m', hp, by omega, ?_, hm'W⟩
    rcases le_or_lt W Q with hc | hc
    · omega
    · have heq : eqLower (lastN (W - Q) (seg c m W)) (closeTagL.take (W - Q)) = true := by
        rw [lastN_seg hW hmW (by omega)]
        have hWW : W - (W - Q) = Q := by omega
        rw [hWW]
        apply eqLower_iff_map.mpr
        rw [seg_eq_take_drop]
        exact map_take_of_matchAt hclose (by rw [length_closeTagL]; omega)
      have := hkeep (W - Q) (by omega) (by omega) heq
      omega
  · intro hQW
    have hfind : findTag (seg c m W) closeTagL = some (Q - m) := by
      apply findTag_seg_first closeTagL_ne_nil hW hmQ
        (by rw [length_closeTagL]; omega) hclose
      intro j hjm hjQ
      apply eq_false_of_ne_true
      intro hx
      exact hmid j (by omega) (by omega) hx
    rw [procBuf_close_some hfind]
    have hdrop : (seg c m W).drop (Q - m + 11) = seg c (Q + 11) W := by
      rw [seg_drop]
      congr 1
      omega
    rw [hdrop]
    exact c1_phaseC hpost (le_refl (Q + 11)) hQW hW

/-- Phase A: the window starts before the open tag.  Depending on how far the
window reaches, the filter waits, enters the span, or passes it entirely. -/
theorem c1_phaseA {c : List Char} {P Q : Nat}
    (hopen : openAt c P)
    (hfirst : ∀ j, j < P → ¬ openAt c j)
    (hclose : closeAt c Q)
    (horder : P + 10 ≤ Q)
    (hmid : ∀ j, j < Q → P + 10 ≤ j → ¬ closeAt c j)
    (hpost : ∀ j, j < c.length → Q + 11 ≤ j → ¬ openAt c j)
    {m W : Nat} (hm : m ≤ P) (hmW : m ≤ W) (hW : W ≤ c.length) :
    (W < P + 10 → ∃ d, procBuf (seg c m W) false = ⟨seg c m d, seg c d W, false⟩ ∧
        m ≤ d ∧ d ≤ P ∧ d ≤ W) ∧
    (P + 10 ≤ W → W < Q + 11 →
      ∃ m', procBuf (seg c m W) false = ⟨seg c m P, seg c m' W, true⟩ ∧
        P + 10 ≤ m' ∧ m' ≤ Q ∧ m' ≤ W) ∧
    (Q + 11 ≤ W → ∃ d, procBuf (seg c m W) false =
        ⟨seg c m P ++ seg c (Q + 11) d, seg c d W, false⟩ ∧
        Q + 11 ≤ d ∧ d ≤ W) := by
  have hfound : P + 10 ≤ W → findTag (seg c m W) openTagL = some (P - m) := by
    intro hPW
    apply findTag_seg_first openTagL_ne_nil hW hm
      (by rw [length_openTagL]; omega) hopen
    intro j hjm hjP
    apply eq_false_of_ne_true
    intro hx
    exact hfirst j (by omega) hx
  have hdrop : (seg c m W).drop (P - m + 10) = seg c (P + 10) W := by
    rw [seg_drop]
    congr 1
    omega
  have htake : P + 10 ≤ W → (seg c m W).take (P - m) = seg c m P := by
    intro hPW
    rw [seg_take (by omega)]
    congr 1
    omega
  refine ⟨?_, ?_, ?_⟩
  · intro hWP
    have hnone : findTag (seg c m W) openTagL = none := by
      apply findTag_seg_none openTagL_ne_nil hW
      intro j hj hjW
      rw [length_openTagL] at hjW
      apply eq_false_of_ne_true
      intro hx
      exact hfirst j (by omega) hx
    rcases procBuf_outside_none_spec hnone hmW hW with ⟨i, hp, hiW, hmax⟩
    refine ⟨W - i, hp, by omega, ?_, by omega⟩
    rcases le_or_lt W P with hc | hc
    · omega
    · have heq : eqLower (lastN (W - P) (seg c m W)) (openTagL.take (W - P)) = true := by
        rw [lastN_seg hW hmW (by omega)]
        have hWW : W - (W - P) = P := by omega
        rw [hWW]
        apply eqLower_iff_map.mpr
        rw [seg_eq_take_drop]
        exact map_take_of_matchAt hopen (by rw [length_openTagL]; omega)
      have := hmax (W - P) (by omega) (by omega) heq
      omega
  · intro hPW hWQ
    rw [procBuf_open_some (hfound hPW), hdrop, htake hPW]
    rcases (c1_phaseB hclose hmid hpost (le_refl (P + 10)) horder hPW hW).1 hWQ
      with ⟨m', hp, hm1, hm2, hm3⟩
    rw [hp]
    exact ⟨m', by simp, hm1, hm2, hm3⟩
  · intro hQW
    have hPW : P + 10 ≤ W := by omega
    rw [procBuf_open_some (hfound hPW), hdrop, htake hPW]
    rcases (c1_phaseB hclose hmid hpost (le_refl (P + 10)) horder hPW hW).2 hQW
      with ⟨d, hp, hd1, hd2⟩
    rw [hp]
    exact ⟨d, by simp, hd1, hd2⟩

/-- Fragment-level induction for C1: whatever the split of the remaining
input into fragments, each phase produces the expected remaining output. -/
theorem c1_aux {c : List Char} {P Q : Nat}
    (hopen : openAt c P)
    (hfirst : ∀ j, j < P → ¬ openAt c j)
    (hclose : closeAt c Q)
    (horder : P + 10 ≤ Q)
    (hmid : ∀ j, j < Q → P + 10 ≤ j → ¬ closeAt c j)
    (hpost : ∀ j, j < c.length → Q + 11 ≤ j → ¬ openAt c j) :
    ∀ (fs : List (List Char)) (W m : Nat),
      fs.flatten = c.drop W → W ≤ c.length →
      (m ≤ P → m ≤ W → W < P + 10 →
        runFilterFrom ⟨seg c m W, false⟩ fs =
          seg c m P ++ seg c (Q + 11) c.length) ∧
      (P + 10 ≤ m → m ≤ Q → m ≤ W → W < Q + 11 →
        runFilterFrom ⟨seg c m W, true⟩ fs = seg c (Q + 11) c.length) ∧
      (Q + 11 ≤ m → m ≤ W →
        runFilterFrom ⟨seg c m W, false⟩ fs = seg c m c.length) := by
  intro fs
  induction fs with
  | nil =>
    intro W m hflat hW
    have hWlen : c.length ≤ W := by
      have := congrArg List.length hflat
      simp only [List.flatten_nil, List.length_nil, List.length_drop] at this
      omega
    have hQc := closeAt_le hclose
    refine ⟨?_, ?_, ?_⟩
    · intro hm hmW hWP
      omega
    · intro hm hmQ hmW hWQ
      omega
    · intro hm hmW
      have hWc : W = c.length := by omega
      subst hWc
      simp [runFilterFrom]
  | cons f fs ih =>
    intro W m hflat hW
    have hlenf : f.length ≤ c.length - W := by
      have := congrArg List.length hflat
      simp only [List.flatten_cons, List.length_append, List.length_drop] at this
      omega
    have hW1 : W + f.length ≤ c.length := by omega
    have hfseg : f = seg c W (W + f.length) := by
      have h1 := congrArg (List.take f.length) hflat
      rw [List.flatten_cons, List.take_append_of_le_length (le_refl f.length),
        List.take_length] at h1
      rw [seg_eq_take_drop]
      have hWf : W + f.length - W = f.length := by omega
      rw [hWf]
      exact h1
    have hrest : fs.flatten = c.drop (W + f.length) := by
      have h2 := congrArg (List.drop f.length) hflat
      rw [List.flatten_cons, List.drop_append_of_le_length (le_refl f.length),
        List.drop_length, List.drop_drop] at h2
      rw [List.nil_append] at h2
      exact h2
    refine ⟨?_, ?_, ?_⟩
    · intro hm hmW hWP
      have hbuf : seg c m W ++ f = seg c m (W + f.length) := by
        conv_lhs => rw [hfseg]
        exact seg_append hmW (Nat.le_add_right W f.length)
      have hstep : stepFilter ⟨seg c m W, false⟩ f =
          procBuf (seg c m (W + f.length)) false := by
        unfold stepFilter
        rw [hbuf]
      show (stepFilter ⟨seg c m W, false⟩ f).out ++
          runFilterFrom (stepFilter ⟨seg c m W, false⟩ f).st fs =
          seg c m P ++ seg c (Q + 11) c.length
      have hmW1 : m ≤ W + f.length := by omega
      rcases c1_phaseA hopen hfirst hclose horder hmid hpost hm hmW1 hW1
        with ⟨hA, hAB, hAC⟩
      rcases Nat.lt_or_ge (W + f.length) (P + 10) with hc1 | hc1
      · rcases hA hc1 with ⟨d, hp, hmd, hdP, hdW⟩
        rw [hstep, hp]
        simp only
        rw [(ih (W + f.length) d hrest hW1).1 hdP hdW hc1, ← List.append_assoc,
          seg_append hmd hdP]
      · rcases Nat.lt_or_ge (W + f.length) (Q + 11) with hc2 | hc2
        · rcases hAB hc1 hc2 with ⟨m', hp, hm1, hm2, hm3⟩
          rw [hstep, hp]
          simp only
          rw [(ih (W + f.length) m' hrest hW1).2.1 hm1 hm2 hm3 hc2]
        · rcases hAC hc2 with ⟨d, hp, hd1, hd2⟩
          rw [hstep, hp]
          simp only
          rw [(ih (W + f.length) d hrest hW1).2.2 hd1 hd2, List.append_assoc,
            seg_append hd1 (le_trans hd2 hW1)]
    · intro hm hmQ hmW hWQ
      have hbuf : seg c m W ++ f = seg c m (W + f.length) := by
        conv_lhs => rw [hfseg]
        exact seg_append hmW (Nat.le_add_right W f.length)
      have hstep : stepFilter ⟨seg c m W, true⟩ f =
          procBuf (seg c m (W + f.length)) true := by
        unfold stepFilter
        rw [hbuf]
      show (stepFilter ⟨seg c m W, true⟩ f).out ++
          runFilterFrom (stepFilter ⟨seg c m W, true⟩ f).st fs =
          seg c (Q + 11) c.length
      have hmW1 : m ≤ W + f.length := by omega
      rcases c1_phaseB hclose hmid hpost hm hmQ hmW1 hW1 with ⟨hB, hBC⟩
      rcases Nat.lt_or_ge (W + f.length) (Q + 11) with hc2 | hc2
      · rcases hB hc2 with ⟨m', hp, hm1, hm2, hm3⟩
        rw [hstep, hp]
        simp only
        rw [(ih (W + f.length) m' hrest hW1).2.1 hm1 hm2 hm3 hc2,
          List.nil_append]
      · rcases hBC hc2 with ⟨d, hp, hd1, hd2⟩
        rw [hstep, hp]
        simp only
        rw [(ih (W + f.length) d hrest hW1).2.2 hd1 hd2,
          seg_append hd1 (le_trans hd2 hW1)]
    · intro hm hmW
      have hbuf : seg c m W ++ f = seg c m (W + f.length) := by
        conv_lhs => rw [hfseg]
        exact seg_append hmW (Nat.le_add_right W f.length)
      have hstep : stepFilter ⟨seg c m W, false⟩ f =
          procBuf (seg c m (W + f.length)) false := by
        unfold stepFilter
        rw [hbuf]
      show (stepFilter ⟨seg c m W, false⟩ f).out ++
          runFilterFrom (stepFilter ⟨seg c m W, false⟩ f).st fs =
          seg c m c.length
      have hmW1 : m ≤ W + f.length := by omega
      rcases c1_phaseC hpost hm hmW1 hW1 with ⟨d, hp, hmd, hdW⟩
      rw [hstep, hp]
      simp only
      rw [(ih (W + f.length) d hrest hW1).2.2 (by omega) hdW,
        seg_append hmd (by omega)]

/-! ## C5: size of the carried-over buffer at quiescence -/

theorem matchAt_of_eqLower {l tag : List Char} (h : eqLower l tag = true) :
    matchAt l tag = true := by
  have hmap := eqLower_iff_map.mp h
  have hlen : tag.length = l.length := by
    rw [← hmap, List.length_map]
  apply matchAt_iff.mpr
  refine ⟨by omega, ?_⟩
  rw [hlen, List.take_length, hmap]

/-- After any single scanning pass, the kept buffer holds at most 9 characters
outside a thinking block and at most 11 characters inside one. -/
theorem procBufF_bound :
    ∀ {fuel : Nat} {buf : List Char} {inside : Bool}, buf.length < fuel →
      ((procBufF fuel buf inside).st.inside = false →
        (procBufF fuel buf inside).st.buf.length ≤ 9) ∧
      ((procBufF fuel buf inside).st.inside = true →
        (procBufF fuel buf inside).st.buf.length ≤ 11) := by
  intro fuel
  induction fuel with
  | zero => intro buf inside h; omega
  | succ fuel ih =>
    intro buf inside h
    cases inside with
    | false =>
      show ((procBufF (fuel + 1) buf false).st.inside = false → _) ∧ _
      unfold procBufF
      cases hf : findTag buf openTagL with
      | some k =>
        have hk := findTag_some_bound openTagL_ne_nil hf
        rw [length_openTagL] at hk
        simp only
        apply ih
        simp only [List.length_drop]
        omega
      | none =>
        simp only [List.length_drop]
        constructor
        · intro _
          have hile : suffixMatchLen buf openTagL ≤ min 10 buf.length := by
            have := sufLen_le (min openTagL.length buf.length) buf openTagL
            unfold suffixMatchLen
            rw [length_openTagL] at this ⊢
            omega
          have hne10 : suffixMatchLen buf openTagL ≠ 10 := by
            intro h10
            have hpos : 0 < suffixMatchLen buf openTagL := by omega
            have hspec := @sufLen_spec (min openTagL.length buf.length)
              buf openTagL
            unfold suffixMatchLen at h10
            rw [length_openTagL] at h10
            have heq : eqLower (lastN 10 buf) (openTagL.take 10) = true := by
              have hh := hspec (by
                unfold suffixMatchLen at hpos
                rw [length_openTagL] at hpos
                exact hpos)
              rw [length_openTagL] at hh
              rw [h10] at hh
              exact hh
            have hm := matchAt_of_eqLower heq
            rw [show openTagL.take 10 = openTagL from by decide] at hm
            unfold lastN at hm
            have hfalse := (findTag_none_iff openTagL_ne_nil).mp hf (buf.length - 10)
            rw [hfalse] at hm
            exact absurd hm (by simp)
          omega
        · intro hcontra
          exact absurd hcontra (by simp)
    | true =>
      show ((procBufF (fuel + 1) buf true).st.inside = false → _) ∧ _
      unfold procBufF
      cases hf : findTag buf closeTagL with
      | some k =>
        have hk := findTag_some_bound closeTagL_ne_nil hf
        rw [length_closeTagL] at hk
        simp only
        apply ih
        simp only [List.length_drop]
        omega
      | none =>
        by_cases hlen : 11 < buf.length
        · rw [if_pos hlen]
          simp only
          constructor
          · intro hcontra
            exact absurd hcontra (by simp)
          · intro _
            by_cases hpos : 0 < suffixMatchLen buf closeTagL
            · rw [if_pos hpos]
              have := @lastN_le_length (suffixMatchLen buf closeTagL) buf
              have hile : suffixMatchLen buf closeTagL ≤ 11 := by
                have h2 := sufLen_le (min closeTagL.length buf.length) buf closeTagL
                unfold suffixMatchLen
                rw [length_closeTagL] at h2 ⊢
                omega
              omega
            · rw [if_neg hpos]
              have := @lastN_le_length 11 buf
              omega
        · rw [if_neg hlen]
          simp only
          exact ⟨fun hcontra => absurd hcontra (by simp), fun _ => by omega⟩

/-- The buffer bound holds at every quiescent point of the stream. -/
theorem runStateFrom_bound :
    ∀ (fs : List (List Char)) (st : FiltSt),
      (st.inside = false → st.buf.length ≤ 9) →
      (st.inside = true → st.buf.length ≤ 11) →
      ((runStateFrom st fs).inside = false → (runStateFrom st fs).buf.length ≤ 9) ∧
      ((runStateFrom st fs).inside = true → (runStateFrom st fs).buf.length ≤ 11) := by
  intro fs
  induction fs with
  | nil => intro st h9 h11; exact ⟨h9, h11⟩
  | cons f fs ih =>
    intro st h9 h11
    show ((runStateFrom (stepFilter st f).st fs).inside = false → _) ∧ _
    have hb := @procBufF_bound ((st.buf ++ f).length + 1)
      (st.buf ++ f) st.inside (Nat.lt_succ_self _)
    exact ih (stepFilter st f).st hb.1 hb.2

/-! ## Claim theorems for the streaming filter -/

/-- **C1.** For every finite fragment sequence whose concatenation `c` contains
exactly one well-formed case-insensitive `<thinking>...</thinking>` span — the
first open tag occurrence starts at `P`, the first close tag occurrence after
it starts at `Q`, and no open tag occurs after the span — and for every way of
splitting `c` across fragment boundaries, the concatenation of the fragments
yielded by the streaming tag filter equals `c` with that span, tags included,
removed. -/
theorem claim_C1_single_span_removed (frags : List (List Char)) (c : List Char)
    (P Q : Nat) (hflat : frags.flatten = c) (hopen : openAt c P)
    (hfirst : ∀ j, j < P → ¬ openAt c j) (hclose : closeAt c Q)
    (horder : P + 10 ≤ Q)
    (hmid : ∀ j, j < Q → P + 10 ≤ j → ¬ closeAt c j)
    (hpost : ∀ j, j < c.length → Q + 11 ≤ j → ¬ openAt c j) :
    runFilter frags = c.take P ++ c.drop (Q + 11) := by
  have h0 := (c1_aux hopen hfirst hclose horder hmid hpost frags 0 0
    (by simpa using hflat) (Nat.zero_le _)).1 (Nat.zero_le _) (le_refl 0)
    (by omega)
  unfold runFilter
  have hseg : seg c 0 0 = [] := seg_nil (le_refl 0)
  rw [← hseg, h0, seg_zero, seg_length_self]

/-- Witness for C1: the split `"<thi"` + `"nking>hidden</thinking>visible"`
yields exactly `"visible"`. -/
theorem claim_C1_single_span_removed_witness :
    runFilter [("<thi").data, ("nking>hidden</thinking>visible").data] =
      ("visible").data := by
  have h := claim_C1_single_span_removed
    [("<thi").data, ("nking>hidden</thinking>visible").data]
    ("<thinking>hidden</thinking>visible").data 0 16
    (by decide) (by decide) (by decide) (by decide) (by decide) (by decide)
    (by decide)
  rw [h]
  decide

/-- **C2, counterexample.** The quizzer variant does not reproduce the input
character for character even when no open tag occurs: it rewrites every
newline to `<br>`. -/
theorem claim_C2_counterexample :
    findTag (List.flatten [("a\nb").data]) openTagL = none ∧
    runFilterQuiz [("a\nb").data] ≠ List.flatten [("a\nb").data] := by
  decide

/-- **C2, amended.** For every finite fragment sequence whose concatenation
contains no case-insensitive occurrence of the open tag, the general and
curriculum filters reproduce the input exactly, and the quizzer filter
reproduces the input with every newline replaced by `<br>` (hence exactly only
when the input has no newline). -/
theorem claim_C2_no_open_tag_passthrough (frags : List (List Char))
    (h : findTag frags.flatten openTagL = none) :
    runFilter frags = frags.flatten ∧
    runFilterQuiz frags = replaceNl frags.flatten := by
  have hocc := (findTag_none_iff openTagL_ne_nil).mp h
  have h1 : runFilter frags = frags.flatten := by
    unfold runFilter
    have h2 := runFilterFrom_no_open frags [] (by simpa using hocc)
    simpa using h2
  refine ⟨h1, ?_⟩
  unfold runFilterQuiz
  rw [runFilterQuizFrom_eq]
  show replaceNl (runFilter frags) = _
  rw [h1]

/-- Witness for the amended C2. -/
theorem claim_C2_no_open_tag_passthrough_witness :
    runFilter [("hel").data, ("lo\n").data] = ("hello\n").data ∧
    runFilterQuiz [("hel").data, ("lo\n").data] = ("hello<br>").data := by
  have h := claim_C2_no_open_tag_passthrough [("hel").data, ("lo\n").data]
    (by decide)
  exact ⟨h.1.trans (by decide), h.2.trans (by decide)⟩

/-- **C4.** For every finite fragment sequence whose concatenation `c` contains
a case-insensitive open tag first occurring at `P` that is never followed by a
close tag, the filter emits exactly the text preceding the open tag and
nothing from the open tag onward. -/
theorem claim_C4_unterminated_discarded (frags : List (List Char))
    (c : List Char) (P : Nat) (hflat : frags.flatten = c) (hopen : openAt c P)
    (hfirst : ∀ j, j < P → ¬ openAt c j)
    (hnoclose : ∀ j, j < c.length → P ≤ j → ¬ closeAt c j) :
    runFilter frags = c.take P := by
  have h0 := (c4_aux hopen hfirst hnoclose frags 0 0 (by simpa using hflat)
    (Nat.zero_le _)).1 (Nat.zero_le _) (le_refl 0) (by omega)
  unfold runFilter
  have hseg : seg c 0 0 = [] := seg_nil (le_refl 0)
  rw [← hseg, h0, seg_zero]

/-- Witness for C4: the input `"<thinking>oops"` produces the empty output. -/
theorem claim_C4_unterminated_discarded_witness :
    runFilter [("<thinking>oops").data] = [] := by
  have h := claim_C4_unterminated_discarded [("<thinking>oops").data]
    ("<thinking>oops").data 0 (by decide) (by decide) (by decide) (by decide)
  rw [h]
  decide

/-- **C5, counterexample.** After the single fragment
`"<thinking>abcdefghijk"` the filter waits inside a thinking block with an
11-character pending buffer, exceeding the claimed bound of
`len('</thinking>') - 1 = 10`. -/
theorem claim_C5_counterexample :
    (runState [("<thinking>abcdefghijk").data]).inside = true ∧
    10 < (runState [("<thinking>abcdefghijk").data]).buf.length := by
  decide

/-- **C5, amended.** At every quiescent point the pending buffer holds at most
9 characters while outside a thinking block and at most 11 characters (the
full close tag length, not one less) while inside one. -/
theorem claim_C5_pending_bound (frags : List (List Char)) :
    (runState frags).buf.length ≤
      (if (runState frags).inside then 11 else 9) := by
  have hb := runStateFrom_bound frags ⟨[], false⟩ (fun _ => by simp)
    (fun hc => by simp at hc)
  cases hins : (runState frags).inside with
  | false =>
    rw [if_neg (by simp)]
    exact hb.1 hins
  | true =>
    rw [if_pos rfl]
    exact hb.2 hins

/-! ## TurnCoordinator: `stream_to_client_and_persist`

Embedding of `src/handlers/main_handler.py`, lines 43-173.  The WebSocket
channel, the agent stream and the chat store are collaborators; we model a run
as the list of delivery/persistence actions the coordinator performs, driven
by the list of items the agent stream produces and by which
`post_to_connection` calls raise. -/

/-- Python whitespace characters stripped by `str.strip()` (ASCII subset). -/
def isPyWs (ch : Char) : Bool :=
  ch == ' ' || ch == '\t' || ch == '\n' || ch == '\r' ||
    ch == '\x0b' || ch == '\x0c'

/-- Python `str.strip()`. -/
def pyStrip (t : List Char) : List Char :=
  ((t.dropWhile isPyWs).reverse.dropWhile isPyWs).reverse

/-- The guard `if chunk_text and chunk_text.strip():` of the streaming loop:
the fragment is truthy and still truthy after stripping whitespace. -/
def sendCond (t : List Char) : Bool :=
  (!t.isEmpty) && (!(pyStrip t).isEmpty)

/-- An exception observable at the coordinator: one raised by the model
stream, or one raised by the `n`-th `post_to_connection` call. -/
inductive Exc where
  | streamExc (msg : List Char)
  | sendExc (n : Nat)
deriving DecidableEq, Repr

/-- A delivery or persistence action performed by the coordinator. -/
inductive Action where
  | emitStart
  | emitProgress (text : List Char)
  | emitEnd
  | emitError (e : Exc)
  | persistAssistant (message : List Char)
deriving DecidableEq, Repr

def isPersist : Action → Bool
  | .persistAssistant _ => true
  | _ => false

def isErrorEvent : Action → Bool
  | .emitError _ => true
  | _ => false

/-- One item produced while driving the agent stream: a text fragment, or an
exception raised mid-stream. -/
inductive StreamItem where
  | frag (t : List Char)
  | exc (msg : List Char)
deriving DecidableEq, Repr

/-- The `async for` loop of `stream_to_client_and_persist`: for each `data`
fragment passing the whitespace guard, post an `in_progress` event and append
the fragment to `assistant_chunks`.  `sendFails n` says whether the `n`-th
`post_to_connection` call raises; a raise, or a stream exception, aborts the
loop.  Returns the progress actions, the accumulator, the next send index and
the exception if one was raised. -/
def coordLoop (sendFails : Nat → Bool) :
    List StreamItem → Nat → List (List Char) →
      List Action × List (List Char) × Nat × Option Exc
  | [], n, acc => ([], acc, n, none)
  | .exc msg :: _, n, acc => ([], acc, n, some (.streamExc msg))
  | .frag t :: ts, n, acc =>
    if sendCond t then
      if sendFails n then ([], acc, n + 1, some (.sendExc n))
      else
        let r := coordLoop sendFails ts (n + 1) (acc ++ [t])
        (Action.emitProgress t :: r.1, r.2)
    else coordLoop sendFails ts n acc

/-- The `except` block: one best-effort attempt to post an error event (a
failure of that post is caught and ignored), then the original exception is
re-raised. -/
def exceptPath (sendFails : Nat → Bool) (n : Nat) (e : Exc)
    (tr : List Action) : List Action × Option Exc :=
  if sendFails n then (tr, some e) else (tr ++ [Action.emitError e], some e)

/-- `stream_to_client_and_persist`: post `start_of_message`, run the streaming
loop, post `end_of_message`, join `assistant_chunks` (the parsed
`agent_response` is always empty, so the joined accumulator is used) and
persist it once as the assistant chat turn; on any exception, attempt an error
event and re-raise. -/
def streamToClientAndPersist (sendFails : Nat → Bool)
    (items : List StreamItem) : List Action × Option Exc :=
  if sendFails 0 then exceptPath sendFails 1 (.sendExc 0) []
  else
    let r := coordLoop sendFails items 1 []
    match r.2.2.2 with
    | some e => exceptPath sendFails r.2.2.1 e (Action.emitStart :: r.1)
    | none =>
      if sendFails r.2.2.1 then
        exceptPath sendFails (r.2.2.1 + 1) (.sendExc r.2.2.1)
          (Action.emitStart :: r.1)
      else
        (Action.emitStart :: r.1 ++
          [Action.emitEnd, Action.persistAssistant r.2.1.flatten], none)

/-- The failure-free run, as C3 describes it. -/
def streamTurnOk (frags : List (List Char)) : List Action :=
  (streamToClientAndPersist (fun _ => false) (frags.map StreamItem.frag)).1

theorem coordLoop_progress_shape :
    ∀ (ts : List StreamItem) (n : Nat) (acc : List (List Char)),
      (∀ msg, ¬ StreamItem.exc msg ∈ ts) →
      ∃ fr : List (List Char), ts = fr.map StreamItem.frag ∧
        coordLoop (fun _ => false) ts n acc =
          ((fr.filter sendCond).map Action.emitProgress,
            acc ++ fr.filter sendCond, n + (fr.filter sendCond).length, none) := by
  intro ts
  induction ts with
  | nil =>
    intro n acc h
    exact ⟨[], rfl, by simp [coordLoop]⟩
  | cons item ts ih =>
    intro n acc h
    cases item with
    | exc msg => exact absurd (List.mem_cons_self _ _) (h msg)
    | frag t =>
      by_cases hc : sendCond t
      · rcases ih (n + 1) (acc ++ [t])
            (fun msg hmem => h msg (List.mem_cons_of_mem _ hmem)) with ⟨fr, hts, hloop⟩
        refine ⟨t :: fr, by rw [List.map_cons, hts], ?_⟩
        show coordLoop (fun _ => false) (.frag t :: ts) n acc = _
        unfold coordLoop
        rw [if_pos hc, if_neg (by simp)]
        simp only [hloop, List.filter_cons_of_pos hc, List.map_cons,
          List.length_cons, List.append_assoc, List.singleton_append,
          Prod.mk.injEq, true_and, and_true]
        omega
      · rcases ih n acc
            (fun msg hmem => h msg (List.mem_cons_of_mem _ hmem)) with ⟨fr, hts, hloop⟩
        refine ⟨t :: fr, by rw [List.map_cons, hts], ?_⟩
        show coordLoop (fun _ => false) (.frag t :: ts) n acc = _
        unfold coordLoop
        rw [if_neg hc]
        rw [hloop, List.filter_cons_of_neg hc]

/-- **C3, counterexample.**  A whitespace-only fragment is non-empty, yet the
coordinator neither delivers an `in_progress` event for it nor appends it to
the accumulator: the persisted assistant text is empty. -/
theorem claim_C3_counterexample :
    ([' '] : List Char) ≠ [] ∧
    streamTurnOk [[' ']] =
      [Action.emitStart, Action.emitEnd, Action.persistAssistant []] ∧
    streamTurnOk [[' ']] ≠
      [Action.emitStart, Action.emitProgress [' '], Action.emitEnd,
        Action.persistAssistant [' ']] := by
  decide

/-- **C3, amended.**  For one successfully handled turn the coordinator emits
`start_of_message` first, then one `in_progress` event per fragment containing
at least one non-whitespace character (in stream order, the same fragment
being appended to the accumulator), then `end_of_message`, and finally
persists the concatenated accumulator as the assistant turn exactly once,
after `end_of_message`. -/
theorem claim_C3_turn_trace (frags : List (List Char)) :
    streamTurnOk frags =
      Action.emitStart :: (frags.filter sendCond).map Action.emitProgress ++
        [Action.emitEnd,
          Action.persistAssistant (frags.filter sendCond).flatten] := by
  unfold streamTurnOk streamToClientAndPersist
  rw [if_neg (by simp)]
  rcases coordLoop_progress_shape (frags.map StreamItem.frag) 1 []
      (by intro msg hmem; simp at hmem) with ⟨fr, hts, hloop⟩
  have hinj : Function.Injective StreamItem.frag := fun a b hab => by
    injection hab
  have hfr : fr = frags := ((List.map_injective_iff.mpr hinj) hts).symm
  subst hfr
  simp only [hloop, List.nil_append]
  rw [if_neg (by simp)]

/-! ## C8: coordinator behaviour on a mid-stream exception -/

theorem coordLoop_all_progress (sendFails : Nat → Bool) :
    ∀ (ts : List StreamItem) (n : Nat) (acc : List (List Char)),
      ∀ a ∈ (coordLoop sendFails ts n acc).1, ∃ t, a = Action.emitProgress t := by
  intro ts
  induction ts with
  | nil => intro n acc a ha; simp [coordLoop] at ha
  | cons item ts ih =>
    intro n acc a ha
    cases item with
    | exc msg => simp [coordLoop] at ha
    | frag t =>
      unfold coordLoop at ha
      by_cases hc : sendCond t
      · rw [if_pos hc] at ha
        by_cases hf : sendFails n
        · rw [if_pos hf] at ha
          simp at ha
        · rw [if_neg hf] at ha
          simp only [List.mem_cons] at ha
          rcases ha with ha | ha
          · exact ⟨t, ha⟩
          · exact ih (n + 1) (acc ++ [t]) a ha
      · rw [if_neg hc] at ha
        exact ih n acc a ha

theorem progress_trace_props {tr : List Action}
    (hall : ∀ a ∈ tr, ∃ t, a = Action.emitProgress t) :
    (Action.emitStart :: tr).all (fun a => !(isPersist a)) = true ∧
    (Action.emitStart :: tr).filter isErrorEvent = [] := by
  constructor
  · rw [List.all_cons]
    simp only [Bool.and_eq_true]
    refine ⟨rfl, ?_⟩
    rw [List.all_eq_true]
    intro a ha
    rcases hall a ha with ⟨t, rfl⟩
    rfl
  · rw [List.filter_eq_nil_iff]
    intro a ha
    rcases List.mem_cons.mp ha with rfl | ha
    · simp [isErrorEvent]
    · rcases hall a ha with ⟨t, rfl⟩
      simp [isErrorEvent]

theorem exceptPath_spec (sendFails : Nat → Bool) (n : Nat) (e : Exc)
    {tr : List Action}
    (hall : tr.all (fun a => !(isPersist a)) = true)
    (herr : tr.filter isErrorEvent = []) :
    (exceptPath sendFails n e tr).2 = some e ∧
    (exceptPath sendFails n e tr).1.all (fun a => !(isPersist a)) = true ∧
    ((exceptPath sendFails n e tr).1.filter isErrorEvent = [] ∨
      ((exceptPath sendFails n e tr).1.filter isErrorEvent = [Action.emitError e] ∧
        (exceptPath sendFails n e tr).1.getLast? = some (Action.emitError e))) := by
  unfold exceptPath
  by_cases hf : sendFails n
  · rw [if_pos hf]
    exact ⟨rfl, hall, Or.inl herr⟩
  · rw [if_neg hf]
    refine ⟨rfl, ?_, Or.inr ⟨?_, List.getLast?_concat tr⟩⟩
    · rw [List.all_append, hall]
      rfl
    · rw [List.filter_append, herr]
      rfl

/-- **C8.**  Whenever an exception is raised while driving the model stream or
delivering fragments, the coordinator persists no assistant turn, delivers at
most one error event — carrying the original exception, as the final action —
and re-raises that exception to its caller. -/
theorem claim_C8_stream_failure (sendFails : Nat → Bool)
    (items : List StreamItem) (e : Exc)
    (h : (streamToClientAndPersist sendFails items).2 = some e) :
    (streamToClientAndPersist sendFails items).1.all
        (fun a => !(isPersist a)) = true ∧
    ((streamToClientAndPersist sendFails items).1.filter isErrorEvent = [] ∨
      ((streamToClientAndPersist sendFails items).1.filter isErrorEvent =
          [Action.emitError e] ∧
        (streamToClientAndPersist sendFails items).1.getLast? =
          some (Action.emitError e))) := by
  unfold streamToClientAndPersist at h ⊢
  by_cases h0 : sendFails 0
  · rw [if_pos h0] at h ⊢
    have hspec := @exceptPath_spec sendFails 1 (Exc.sendExc 0)
      ([] : List Action) rfl rfl
    have he : Exc.sendExc 0 = e := by
      rw [hspec.1] at h
      simpa using h
    rw [← he]
    exact hspec.2
  · rw [if_neg h0] at h ⊢
    have hall := coordLoop_all_progress sendFails items 1 []
    rcases hres : coordLoop sendFails items 1 [] with ⟨tr, acc, nn, exc⟩
    rw [hres] at h hall
    simp only at h hall ⊢
    have hprops := progress_trace_props hall
    cases exc with
    | some e2 =>
      simp only at h ⊢
      have hspec := exceptPath_spec sendFails nn e2 hprops.1 hprops.2
      have he : e2 = e := by
        rw [hspec.1] at h
        simpa using h
      rw [← he]
      exact hspec.2
    | none =>
      simp only at h ⊢
      by_cases hnn : sendFails nn
      · rw [if_pos hnn] at h ⊢
        have hspec := exceptPath_spec sendFails (nn + 1) (Exc.sendExc nn)
          hprops.1 hprops.2
        have he : Exc.sendExc nn = e := by
          rw [hspec.1] at h
          simpa using h
        rw [← he]
        exact hspec.2
      · rw [if_neg hnn] at h
        simp at h

/-- Witness for C8: a stream that yields one fragment and then raises. -/
theorem claim_C8_stream_failure_witness :
    (streamToClientAndPersist (fun _ => false)
        [StreamItem.frag ("a").data, StreamItem.exc ("boom").data]).1.all
        (fun a => !(isPersist a)) = true ∧
    ((streamToClientAndPersist (fun _ => false)
        [StreamItem.frag ("a").data, StreamItem.exc ("boom").data]).1.filter
          isErrorEvent = [] ∨
      ((streamToClientAndPersist (fun _ => false)
          [StreamItem.frag ("a").data, StreamItem.exc ("boom").data]).1.filter
            isErrorEvent = [Action.emitError (Exc.streamExc ("boom").data)] ∧
        (streamToClientAndPersist (fun _ => false)
            [StreamItem.frag ("a").data, StreamItem.exc ("boom").data]).1.getLast? =
          some (Action.emitError (Exc.streamExc ("boom").data)))) :=
  claim_C8_stream_failure (fun _ => false)
    [StreamItem.frag ("a").data, StreamItem.exc ("boom").data]
    (Exc.streamExc ("boom").data) (by decide)

/-! ## QuizSessionEngine: `evaluate_answer` and its database helpers

Embedding of `src/agents/quizzer_agent.py`: `db_update_question_answer`
(lines 101-113), `db_get_session` (115-134), `db_update_session_progress`
(137-173), and the `evaluate_answer` tool (300-341).  The two DynamoDB tables
are modelled for one quiz session: the session record and the per-index
question records.  Timestamp fields (`updated_at`, `answered_at`) and the
chat history are opaque to the claims and omitted. -/

/-- Python `str.upper()` (ASCII labels). -/
def toUpper (t : List Char) : List Char := t.map Char.toUpper

/-- `label.upper().strip()`, the normalization of `evaluate_answer`. -/
def normalizeLabel (t : List Char) : List Char := pyStrip (toUpper t)

/-- The quiz session record (`KAISA-quiz-agent-quiz-session` item). -/
structure QuizSession where
  current_question : Nat
  total_questions : Nat
  score : Nat
  state : List Char
deriving DecidableEq, Repr

/-- The answer-related fields of a question record
(`KAISA-quiz-agent-qna` item); the immutable content fields are opaque. -/
structure QuizQuestion where
  user_answer : Option (List Char)
  score_status : Option (List Char)
deriving DecidableEq, Repr

/-- The database state for one quiz session id. -/
structure QuizDb where
  sess : QuizSession
  questions : Nat → QuizQuestion

/-- `db_update_question_answer`: store the uppercased (not stripped) answer
and a correct/wrong status on the question record. -/
def db_update_question_answer (db : QuizDb) (q_index : Nat)
    (user_answer : List Char) (is_correct : Bool) : QuizDb :=
  { db with questions := fun i =>
      if i = q_index then
        ⟨some (toUpper user_answer),
          some (if is_correct then ("correct").data else ("wrong").data)⟩
      else db.questions i }

/-- `db_get_session` for the session of `db` (the session exists). -/
def db_get_session (db : QuizDb) : QuizSession := db.sess

/-- `db_update_session_progress`: set whichever of score, current_question
and state were passed. -/
def db_update_session_progress (db : QuizDb) (score : Option Nat)
    (current_question : Option Nat) (state : Option (List Char)) : QuizDb :=
  { db with sess :=
      { db.sess with
        score := score.getD db.sess.score,
        current_question := current_question.getD db.sess.current_question,
        state := state.getD db.sess.state } }

/-- `options.get(key, default)`. -/
def optGet (options : List (List Char × List Char)) (key dflt : List Char) :
    List Char :=
  match options.find? (fun p => p.1 == key) with
  | some p => p.2
  | none => dflt

/-- What `evaluate_answer` returns to the orchestrating agent. -/
structure EvalResult where
  is_correct : Bool
  user_answer : List Char
  correct_answer : List Char
  user_choice_text : List Char
  correct_choice_text : List Char
deriving DecidableEq, Repr

/-- The `evaluate_answer` tool (quizzer_agent.py lines 300-341): normalize
both labels, record the answer on the question record, then read the session
and advance it — score +1 on a match, current_question +1, `completed` when
the new index reaches the total.  There is no check of `q_index` against the
session's current question and no check of the session state. -/
def evaluate_answer (db : QuizDb) (q_index : Nat)
    (options : List (List Char × List Char))
    (correct_answer user_answer : List Char) : EvalResult × QuizDb :=
  let user_ans_normalized := normalizeLabel user_answer
  let correct_ans_normalized := normalizeLabel correct_answer
  let db1 := db_update_question_answer db q_index user_answer
    (user_ans_normalized == correct_ans_normalized)
  let session_data := db_get_session db1
  let new_score := session_data.score +
    (if user_ans_normalized == correct_ans_normalized then 1 else 0)
  let new_question := session_data.current_question + 1
  let new_state := if session_data.total_questions ≤ new_question
    then ("completed").data else ("in_progress").data
  let db2 := db_update_session_progress db1 (some new_score)
    (some new_question) (some new_state)
  (⟨user_ans_normalized == correct_ans_normalized, user_ans_normalized,
    correct_ans_normalized,
    optGet options user_ans_normalized (("Invalid").data),
    optGet options correct_ans_normalized []⟩, db2)

/-- **C6, counterexample.**  A submission whose index (0) differs from the
session's current question index (2) is not rejected: `evaluate_answer`
records the answer on question 0 and advances the session. -/
theorem claim_C6_counterexample :
    (0 : Nat) ≠ 2 ∧
    (evaluate_answer ⟨⟨2, 3, 0, ("in_progress").data⟩, fun _ => ⟨none, none⟩⟩
        0 [] (("A").data) (("B").data)).2.sess ≠
      ⟨2, 3, 0, ("in_progress").data⟩ ∧
    (evaluate_answer ⟨⟨2, 3, 0, ("in_progress").data⟩, fun _ => ⟨none, none⟩⟩
        0 [] (("A").data) (("B").data)).2.questions 0 ≠
      (⟨none, none⟩ : QuizQuestion) := by
  decide

/-- **C6, amended.**  `evaluate_answer` performs no staleness validation at
all: for every submitted index — whether or not it equals the session's
current question index, and whatever the session state — it records the
answer on that question record and advances the session by one. -/
theorem claim_C6_no_stale_check (db : QuizDb) (q_index : Nat)
    (options : List (List Char × List Char))
    (correct_answer user_answer : List Char) :
    (evaluate_answer db q_index options correct_answer
        user_answer).2.sess.current_question = db.sess.current_question + 1 ∧
    ((evaluate_answer db q_index options correct_answer
        user_answer).2.questions q_index).user_answer =
      some (toUpper user_answer) := by
  constructor
  · simp [evaluate_answer, db_update_session_progress, db_get_session,
      db_update_question_answer]
  · simp [evaluate_answer, db_update_session_progress, db_get_session,
      db_update_question_answer]

/-- **C7, counterexample.**  Answering once more after a quiz is complete
(current_question = total_questions = 3, no guard prevents it) moves
current_question to 4 ≠ 3 while the state is `completed`: completion is not
equivalent to `current_question = total_questions`. -/
theorem claim_C7_counterexample :
    ¬(((evaluate_answer ⟨⟨3, 3, 3, ("completed").data⟩, fun _ => ⟨none, none⟩⟩
          3 [] (("A").data) (("A").data)).2.sess.state = ("completed").data) ↔
      ((evaluate_answer ⟨⟨3, 3, 3, ("completed").data⟩, fun _ => ⟨none, none⟩⟩
          3 [] (("A").data) (("A").data)).2.sess.current_question = 3)) := by
  decide

/-- **C7, amended.**  For every session and submission, `evaluate_answer`
uppercases and trims both labels before comparing; the score increases by 1
exactly when the normalized labels match; the current question index advances
by exactly 1; and the state becomes `completed` exactly when the new index
reaches **or exceeds** the total (not only when it equals it), otherwise
`in_progress`. -/
theorem claim_C7_answer_update (db : QuizDb) (q_index : Nat)
    (options : List (List Char × List Char))
    (correct_answer user_answer : List Char) :
    (evaluate_answer db q_index options correct_answer
        user_answer).1.is_correct =
      (normalizeLabel user_answer == normalizeLabel correct_answer) ∧
    (evaluate_answer db q_index options correct_answer
        user_answer).2.sess.score =
      (if normalizeLabel user_answer == normalizeLabel correct_answer
        then db.sess.score + 1 else db.sess.score) ∧
    (evaluate_answer db q_index options correct_answer
        user_answer).2.sess.current_question = db.sess.current_question + 1 ∧
    (evaluate_answer db q_index options correct_answer
        user_answer).2.sess.state =
      (if db.sess.total_questions ≤ db.sess.current_question + 1
        then ("completed").data else ("in_progress").data) := by
  refine ⟨rfl, ?_, ?_, ?_⟩
  · by_cases hc : normalizeLabel user_answer == normalizeLabel correct_answer
    · simp [evaluate_answer, db_update_session_progress, db_get_session,
        db_update_question_answer, hc]
    · simp [evaluate_answer, db_update_session_progress, db_get_session,
        db_update_question_answer, hc]
  · simp [evaluate_answer, db_update_session_progress, db_get_session,
      db_update_question_answer]
  · simp [evaluate_answer, db_update_session_progress, db_get_session,
      db_update_question_answer]

/-! ## Session resolution

Embedding of `UserSessionRepository` (`construct_session_id`,
`initialize_user_session`, `get_user_session` in
`src/repositories/user_session_repository.py`) and the session-handling block
of `async_handler` (`src/handlers/main_handler.py`, lines 238-289).  The
DynamoDB store behind `query(hash_key=session_id, limit=1)` is modelled as a
map from the hash key to the stored records; `random.choices` is modelled by
the list of indices the random source picks from the alphanumeric pool.  The
wall-clock `timestamp` field is omitted. -/

/-- A user session record as built by `initialize_user_session`. -/
structure UserSession where
  user_id : List Char
  session_id : List Char
  title : List Char
  session_summary : List Char
  is_deleted : Bool
  has_ended : Bool
  message_count : Nat
  message_count_summarized : Nat
deriving DecidableEq, Repr

/-- `string.ascii_letters + string.digits`, the pool `random.choices` draws
from. -/
def alphanumPool : List Char :=
  ("abcdefghijklmnopqrstuvwxyzABCDEFGHIJKLMNOPQRSTUVWXYZ0123456789").data

/-- `construct_session_id`: `f"{user_id}-{random_part}"` with
`random_part = "".join(random.choices(ascii_letters + digits, k=8))`; the
random source is modelled by `picks`, each pick selecting one pool element. -/
def construct_session_id (user_id : List Char) (picks : List Nat) : List Char :=
  let random_part := picks.map fun n =>
    alphanumPool.getD (n % alphanumPool.length) 'a'
  user_id ++ '-' :: random_part

/-- `initialize_user_session`: fresh record with zero message counts. -/
def initialize_user_session (user_id session_id summary title : List Char) :
    UserSession :=
  { user_id := user_id, session_id := session_id, title := title,
    session_summary := summary, is_deleted := false, has_ended := false,
    message_count := 0, message_count_summarized := 0 }

/-- `get_user_session`: queries by `hash_key = session_id` with `limit=1` and
returns the first record, if any.  The `user_id` parameter is accepted but
plays no part in the query. -/
def get_user_session (user_id : List Char) (session_id : List Char)
    (store : List Char → List UserSession) : Option UserSession :=
  match (store session_id).take 1 with
  | [] => none
  | s :: _ => some s

/-- The coordinator's `if not user_session:` check on an existing-session
request. -/
def session_check_passes (user_id session_id : List Char)
    (store : List Char → List UserSession) : Bool :=
  (get_user_session user_id session_id store).isSome

/-- Outcome of the session-handling block of `async_handler`. -/
inductive SessionOutcome where
  | notFound
  | ok (sess : UserSession) (created : Bool)
deriving DecidableEq, Repr

/-- The session-handling block of `async_handler` followed by the user-turn
save: look up the given session id (rejecting the request when the lookup
returns nothing, with no chat turn persisted), or else synthesize a fresh
session id and create a record with `title="New Chat"`, empty summary and
zero message count; on success the inbound user message is persisted as a
`(role, message)` chat turn.  Returns the outcome, the saved session records
and the persisted chat turns. -/
def async_handler_session_phase (sessionId? : Option (List Char))
    (user_id : List Char) (store : List Char → List UserSession)
    (picks : List Nat) (user_input : List Char) :
    SessionOutcome × List UserSession × List (List Char × List Char) :=
  match sessionId? with
  | some sid =>
    match get_user_session user_id sid store with
    | none => (.notFound, [], [])
    | some s => (.ok s false, [], [((("user").data), user_input)])
  | none =>
    let sid := construct_session_id user_id picks
    let s := initialize_user_session user_id sid [] (("New Chat").data)
    (.ok s true, [s], [((("user").data), user_input)])

/-- **C9.**  A request carrying a session id unknown to the store is rejected
with session-not-found and persists no chat turn; a request without a session
id creates exactly one new session record, whose id is
`{user_id}-{8 random alphanumeric characters}` and whose message count is
zero. -/
theorem claim_C9_session_resolution (user_id sid user_input : List Char)
    (store : List Char → List UserSession) (picks : List Nat)
    (hmiss : store sid = []) (hlen : picks.length = 8) :
    async_handler_session_phase (some sid) user_id store picks user_input =
      (SessionOutcome.notFound, [], []) ∧
    async_handler_session_phase none user_id store picks user_input =
      (SessionOutcome.ok
        (initialize_user_session user_id (construct_session_id user_id picks)
          [] (("New Chat").data)) true,
        [initialize_user_session user_id (construct_session_id user_id picks)
          [] (("New Chat").data)],
        [((("user").data), user_input)]) ∧
    (initialize_user_session user_id (construct_session_id user_id picks)
        [] (("New Chat").data)).message_count = 0 ∧
    construct_session_id user_id picks =
      user_id ++ '-' ::
        (picks.map fun n => alphanumPool.getD (n % alphanumPool.length) 'a') ∧
    (picks.map fun n =>
      alphanumPool.getD (n % alphanumPool.length) 'a').length = 8 ∧
    (picks.map fun n =>
        alphanumPool.getD (n % alphanumPool.length) 'a').all
      (fun ch => alphanumPool.contains ch) = true := by
  refine ⟨?_, rfl, rfl, rfl, by simp [hlen], ?_⟩
  · simp [async_handler_session_phase, get_user_session, hmiss]
  · rw [List.all_eq_true]
    intro ch hch
    rcases List.mem_map.mp hch with ⟨n, _, rfl⟩
    have hlt : n % alphanumPool.length < alphanumPool.length :=
      Nat.mod_lt n (by decide)
    rw [List.getD_eq_getElem alphanumPool 'a' hlt]
    exact List.elem_eq_true_of_mem (List.getElem_mem hlt)

/-- Witness for C9 at a store with no records and the pick sequence
`[0, 1, 2, 3, 4, 5, 6, 7]`. -/
theorem claim_C9_session_resolution_witness :
    async_handler_session_phase (some (("s1").data)) (("u").data)
        (fun _ => []) [0, 1, 2, 3, 4, 5, 6, 7] (("hi").data) =
      (SessionOutcome.notFound, [], []) ∧
    async_handler_session_phase none (("u").data) (fun _ => [])
        [0, 1, 2, 3, 4, 5, 6, 7] (("hi").data) =
      (SessionOutcome.ok
        (initialize_user_session (("u").data)
          (construct_session_id (("u").data) [0, 1, 2, 3, 4, 5, 6, 7])
          [] (("New Chat").data)) true,
        [initialize_user_session (("u").data)
          (construct_session_id (("u").data) [0, 1, 2, 3, 4, 5, 6, 7])
          [] (("New Chat").data)],
        [((("user").data), ("hi").data)]) ∧
    (initialize_user_session (("u").data)
        (construct_session_id (("u").data) [0, 1, 2, 3, 4, 5, 6, 7])
        [] (("New Chat").data)).message_count = 0 ∧
    construct_session_id (("u").data) [0, 1, 2, 3, 4, 5, 6, 7] =
      ("u").data ++ '-' ::
        ([0, 1, 2, 3, 4, 5, 6, 7].map fun n =>
          alphanumPool.getD (n % alphanumPool.length) 'a') ∧
    ([0, 1, 2, 3, 4, 5, 6, 7].map fun n =>
      alphanumPool.getD (n % alphanumPool.length) 'a').length = 8 ∧
    ([0, 1, 2, 3, 4, 5, 6, 7].map fun n =>
        alphanumPool.getD (n % alphanumPool.length) 'a').all
      (fun ch => alphanumPool.contains ch) = true :=
  claim_C9_session_resolution (("u").data) (("s1").data) (("hi").data)
    (fun _ => []) [0, 1, 2, 3, 4, 5, 6, 7] rfl rfl

/-- **C10.**  `get_user_session` queries the store by session id alone: its
result — and hence the coordinator's session check — is identical for any two
requesting user ids, and the check passes exactly when the store holds a
record for that session id. -/
theorem claim_C10_lookup_user_independent (u1 u2 s : List Char)
    (store : List Char → List UserSession) :
    get_user_session u1 s store = get_user_session u2 s store ∧
    session_check_passes u1 s store = session_check_passes u2 s store ∧
    session_check_passes u1 s store = !(store s).isEmpty := by
  refine ⟨rfl, rfl, ?_⟩
  cases hstore : store s with
  | nil => simp [session_check_passes, get_user_session, hstore]
  | cons x xs => simp [session_check_passes, get_user_session, hstore]

end KAISA







